import Mathlib

/-!
# Verification of the `nohrs` dual-mode search engine core

A shallow embedding of `src/services/search/{indexer,engine,ripgrep,watcher}.rs`.

Filesystem paths are modelled as component lists (`Path := List String`); the
on-disk filesystem visible to the engine is an association list from paths to
entries.  The tantivy `IndexWriter` is modelled by a trace of primitive writer
operations (`delete_term`, `add_document`, `commit`), exactly the operations
the Rust code issues, and the index state is the fold of such a trace over a
list of documents (tantivy applies operations in opstamp order: a delete
removes every earlier document carrying the term).  Library layers that sit
below the repository's code (the tantivy query executor selecting hits, the
grep regex matcher producing per-line matches, the directory walker's
enumeration order) are modelled as parameters or as the disk contents
themselves; everything above them is translated line by line from the source.
-/

namespace Nohrs

/-- A filesystem path, as a list of components (the Rust side uses `PathBuf`;
absolute paths are rendered by `pathToString`). -/
abbrev Path := List String

/-- What `fs::metadata` / `read_to_string` can observe at a path:
a regular file (with its byte size and, when the bytes are valid UTF-8, its
decoded text), a directory, or an entry that is neither a regular file nor a
directory (socket, fifo, ...) for which `read_to_string` fails. -/
inductive FsEntry where
  | file (size : Nat) (text : Option String)
  | dir (size : Nat)
  | other (size : Nat)
deriving DecidableEq, Repr

/-- The filesystem contents visible to the walker and to `Path::exists`. -/
abbrev Disk := List (Path × FsEntry)

instance : Inhabited FsEntry := ⟨FsEntry.dir 0⟩

instance : Nonempty (Path × FsEntry) := ⟨([], FsEntry.dir 0)⟩

/-- Stat a path: `some` iff `path.exists()` in the Rust code. -/
def diskLookup (disk : Disk) (p : Path) : Option FsEntry :=
  (disk.find? (fun e => e.1 == p)).map (·.2)

/-- `fs::read_to_string`: succeeds only on a regular file whose bytes decode
as UTF-8 (a NUL byte is legal for `read_to_string`; the indexer checks for it
separately). -/
def readToString (disk : Disk) (p : Path) : Option String :=
  match diskLookup disk p with
  | some (.file _ t) => t
  | _ => none

/-- `path.file_name().unwrap_or_default()`: the final path component. -/
def fileNameOf (p : Path) : String := p.getLast?.getD ""

/-- `path.to_string_lossy()` for an absolute path. -/
def pathToString (p : Path) : String := "/" ++ String.intercalate "/" p

/-- The NUL character used by the binary-file heuristic. -/
def nullChar : Char := Char.ofNat 0

/-- A tantivy document as built by `index_single_file` / `index_single_directory`
(the schema's `last_modified` field is never populated by either routine). -/
structure IndexedDoc where
  path : Path
  filename : String
  content : String
  is_directory : Nat
deriving DecidableEq, Repr

/-- One row of the result contract shared by both backends
(`SearchResult { path, line_number, line_content }`). -/
structure SearchResult where
  path : Path
  line_number : Nat
  line_content : String
deriving DecidableEq, Repr

/-- A primitive operation issued on the shared tantivy `IndexWriter`. -/
inductive WriterOp where
  | deleteTerm (p : Path)
  | addDocument (d : IndexedDoc)
  | commit
deriving DecidableEq, Repr

/-- Tantivy semantics of one writer operation on the document multiset
(kept as a list in insertion order): `delete_term` removes every document
added earlier whose `path` term is exactly `p`. -/
def applyWriterOp (idx : List IndexedDoc) : WriterOp → List IndexedDoc
  | .deleteTerm p => idx.filter (fun d => d.path ≠ p)
  | .addDocument d => idx ++ [d]
  | .commit => idx

/-- Fold a writer trace over an index state. -/
def applyWriterOps (idx : List IndexedDoc) (ops : List WriterOp) : List IndexedDoc :=
  ops.foldl applyWriterOp idx

/-- One field of the tantivy schema, with the flags used by `create_schema`. -/
structure FieldDef where
  name : String
  tokenized : Bool
  stored : Bool
  fast : Bool
  indexed : Bool
deriving DecidableEq, Repr

/-- `IndexManager::create_schema`: `path` is `STRING | STORED`, `filename` is
`TEXT | STORED`, `content` is `TEXT` (indexed, tokenized, not stored),
`last_modified` is `FAST`, `is_directory` is `FAST | STORED`. -/
def create_schema : List FieldDef :=
  [ ⟨"path", false, true, false, true⟩,
    ⟨"filename", true, true, false, true⟩,
    ⟨"content", true, false, false, true⟩,
    ⟨"last_modified", false, false, true, false⟩,
    ⟨"is_directory", false, true, true, false⟩ ]

/-- The 10 MiB size ceiling from `index_single_file`. -/
def sizeCeiling : Nat := 10 * 1024 * 1024

/-- The document built by the upsert branch of `index_single_file`: the
`content` field is the path string, a newline, then the file text
(`format!("{}\n{}", path_str, content)`). -/
def fileDoc (p : Path) (text : String) : IndexedDoc :=
  { path := p
    filename := fileNameOf p
    content := pathToString p ++ "\n" ++ text
    is_directory := 0 }

/-- The document built by `index_single_directory`: `content` is seeded with
the directory's own name. -/
def dirDoc (p : Path) : IndexedDoc :=
  { path := p
    filename := fileNameOf p
    content := fileNameOf p
    is_directory := 1 }

/-- `IndexManager::index_single_file`, as the writer trace it emits: skip when
the metadata read fails, when the entry is not a regular file (reading it as a
string fails), when the size exceeds 10 MiB, when the bytes are not valid
UTF-8, or when the text contains a NUL byte; otherwise delete the exact path
term and add the file document. -/
def index_single_file (disk : Disk) (p : Path) : List WriterOp :=
  match diskLookup disk p with
  | none => []
  | some (.dir _) => []
  | some (.other _) => []
  | some (.file size text) =>
    if sizeCeiling < size then []
    else
      match text with
      | none => []
      | some content =>
        if content.toList.contains nullChar then []
        else [.deleteTerm p, .addDocument (fileDoc p content)]

/-- `IndexManager::index_single_directory`: always delete the exact path term,
then add the directory document. -/
def index_single_directory (p : Path) : List WriterOp :=
  [.deleteTerm p, .addDocument (dirDoc p)]

/-- `root.isPrefixOf p`: whether the walker rooted at `root` reaches `p`
(the root itself is visited too). -/
def underRoot (root p : Path) : Bool := root.isPrefixOf p

/-- The entries the `ignore` walker yields under `root`, in disk order.  The
`Disk` holds exactly the walkable (non-ignored) entries. -/
def walkEntries (disk : Disk) (root : Path) : Disk :=
  disk.filter (fun e => underRoot root e.1)

/-- The trace one walked entry contributes inside `index_home`'s loop:
`is_file()` entries go through `index_single_file`, `is_dir()` entries through
`index_single_directory`, anything else is not indexed. -/
def index_home_entry (disk : Disk) (e : Path × FsEntry) : List WriterOp :=
  match e.2 with
  | .file _ _ => index_single_file disk e.1
  | .dir _ => index_single_directory e.1
  | .other _ => []

/-- `IndexManager::index_home` as a writer trace: the walk's per-entry
upserts followed by the single final commit. -/
def index_home (disk : Disk) (root : Path) : List WriterOp :=
  ((walkEntries disk root).flatMap (index_home_entry disk)) ++ [.commit]

/-- The trace one batch element contributes inside `process_changes`:
an existing path is handed to `index_single_file` (even when it is a
directory); a missing path gets a bare delete of its exact path term. -/
def process_changes_elem (disk : Disk) (p : Path) : List WriterOp :=
  if (diskLookup disk p).isSome then index_single_file disk p
  else [.deleteTerm p]

/-- `IndexManager::process_changes` as a writer trace: all per-path work,
then exactly one commit for the whole batch. -/
def process_changes (disk : Disk) (paths : List Path) : List WriterOp :=
  (paths.flatMap (process_changes_elem disk)) ++ [.commit]

/-- Index state after `index_home`. -/
def index_home_state (disk : Disk) (root : Path) (idx : List IndexedDoc) : List IndexedDoc :=
  applyWriterOps idx (index_home disk root)

/-- Index state after `process_changes`. -/
def process_changes_state (disk : Disk) (paths : List Path) (idx : List IndexedDoc) :
    List IndexedDoc :=
  applyWriterOps idx (process_changes disk paths)

/-- One mutating call on the `IndexManager`, with the filesystem it observed
(the filesystem may change between calls). -/
inductive StoreOp where
  | rebuild (disk : Disk) (root : Path)
  | changes (disk : Disk) (paths : List Path)

/-- The writer trace of one store operation. -/
def storeOpTrace : StoreOp → List WriterOp
  | .rebuild disk root => index_home disk root
  | .changes disk paths => process_changes disk paths

/-- Run a finite sequence of `rebuild` / `process_changes` calls (serialized
by the single writer lock). -/
def runStore (ops : List StoreOp) (idx : List IndexedDoc) : List IndexedDoc :=
  ops.foldl (fun s o => applyWriterOps s (storeOpTrace o)) idx

/-- Split a character list at every occurrence of `sep` (the list-level
analogue of splitting a string on a separator). -/
def splitChar (sep : Char) : List Char → List (List Char)
  | [] => [[]]
  | c :: cs =>
    let r := splitChar sep cs
    if c = sep then [] :: r
    else (c :: r.headD []) :: r.tail

/-- `str::lines`: split on `'\n'`, drop the final empty piece produced by a
trailing newline (so the empty string has no lines), and strip a trailing
`'\r'` from each line. -/
def rustLines (s : String) : List String :=
  let parts := splitChar '\n' s.toList
  let parts := if parts.getLast? = some [] then parts.dropLast else parts
  parts.map (fun l => (⟨if l.getLast? = some '\r' then l.dropLast else l⟩ : String))

/-- `str::to_lowercase` (ASCII case folding; full Unicode folding agrees with
it on the ASCII text these routines compare). -/
def lowerStr (s : String) : String := ⟨s.toList.map Char.toLower⟩

/-- `line.to_lowercase().contains(&query.to_lowercase())`: case-insensitive
substring test. -/
def containsCI (line query : String) : Bool :=
  decide ((lowerStr query).toList <:+: (lowerStr line).toList)

/-- `find_all_match_lines`: re-read the file from disk; on success, scan its
lines and keep every `(index + 1, line)` whose lowercased line contains the
lowercased query; an unreadable file yields no matches. -/
def find_all_match_lines (disk : Disk) (p : Path) (query : String) : List (Nat × String) :=
  match readToString disk p with
  | some content =>
      (rustLines content).enum.filterMap
        (fun il => if containsCI il.2 query then some (il.1 + 1, il.2) else none)
  | none => []

/-- The results `IndexManager::search` emits for one retrieved document:
a directory hit yields one `line_number = 0` row; a file hit yields one row
per matching line, or a single `line_number = 0` row when no line matches. -/
def hitResults (disk : Disk) (query : String) (d : IndexedDoc) : List SearchResult :=
  if d.is_directory = 1 then [⟨d.path, 0, ""⟩]
  else
    let ml := find_all_match_lines disk d.path query
    if ml.isEmpty then [⟨d.path, 0, ""⟩]
    else ml.map (fun m => ⟨d.path, m.1, m.2⟩)

/-- `IndexManager::search` over the documents the tantivy searcher retrieved
for the query (`hits` stands for the top-docs list; tantivy only ever hands
back documents stored in the index). -/
def index_search (disk : Disk) (query : String) (hits : List IndexedDoc) : List SearchResult :=
  hits.flatMap (hitResults disk query)

/-- A regular file visited by the `RipgrepBackend` walk, with the matches the
`grep` searcher reports for it: line number (`line_number().unwrap_or(0)`) and
line text, in file order. -/
structure RgFile where
  path : Path
  matchLines : List (Nat × String)
deriving DecidableEq, Repr

/-- The global Root-scope result cap (`MAX_RESULTS`). -/
def maxResults : Nat := 100

/-- `RipgrepBackend::search` over the files the bounded walk visits: before
each file the walk stops if the shared result list has reached the cap;
within a file, `MatchStorage::matched` appends matches only while the list is
below the cap. -/
def ripgrep_search (cap : Nat) (files : List RgFile) : List SearchResult :=
  files.foldl
    (fun acc f =>
      if cap ≤ acc.length then acc
      else acc ++ (f.matchLines.map (fun m => (⟨f.path, m.1, m.2⟩ : SearchResult))).take
        (cap - acc.length))
    []

/-- Total number of matches the regex produces across all walked files. -/
def totalRgMatches (files : List RgFile) : Nat :=
  (files.map (fun f => f.matchLines.length)).sum

/-- Modelled from the spec: the `SearchScope` enum `{Home, Root}` consumed by
`SearchEngine::search` (engine.rs matches on `SearchScope::Home` /
`SearchScope::Root`; the module declaring this enum is not among the sources,
so it is reconstructed from spec §6 and the `engine.rs` match arms). -/
inductive SearchScope where
  | Home
  | Root
deriving DecidableEq, Repr

/-- `SearchEngine::search`: `Home` routes to `IndexManager::search` (over the
hits tantivy retrieves from the current index), `Root` routes to
`RipgrepBackend::search` with the global cap. -/
def engine_search (disk : Disk) (query : String) (hits : List IndexedDoc)
    (files : List RgFile) : SearchScope → List SearchResult
  | .Home => index_search disk query hits
  | .Root => ripgrep_search maxResults files

/-- The home directory of the engine's user; `IndexManager::new` sets
`content_root = home.join("Documents")` while `SearchEngine::new` watches
`home` itself. -/
def contentRoot (home : Path) : Path := home ++ ["Documents"]

/-- The step sequences the running engine can produce: every rebuild walks the
manager's `content_root`, and every change batch comes from the watcher rooted
at the home directory, so each of its paths lies under `home`. -/
def validEngineSteps (home : Path) (steps : List StoreOp) : Prop :=
  ∀ s ∈ steps,
    match s with
    | .rebuild _ root => root = contentRoot home
    | .changes _ paths => ∀ p ∈ paths, underRoot home p = true

/-- Walked-entry kinds counted by `index_home`'s pre-count: the denominator
counts entries with `is_file() || is_dir()`; the progress loop's numerator
counts every successfully yielded entry. -/
def countedEntry : FsEntry → Bool
  | .file _ _ => true
  | .dir _ => true
  | .other _ => false

/-- The denominator `index_home` pre-counts when a progress sink is supplied:
the number of walked entries that are a file or a directory. -/
def progress_total (walk : List FsEntry) : Nat := (walk.filter countedEntry).length

/-- The sequence of values `index_home` sends on the progress channel, as exact
rationals standing for the `f32` fractions: `0.0` first, then
`processed / total` whenever the running entry count `processed = i + 1` is a
multiple of 100 (and `total > 0`), then the final `1.0` sent unconditionally
on completion.  The numerator counts every walked entry; the denominator only
files and directories. -/
def progress_sends (walk : List FsEntry) : List ℚ :=
  [0] ++
    (((List.range walk.length).filter
        (fun i => decide (0 < progress_total walk) && ((i + 1) % 100 == 0))).map
      (fun i => ((i + 1 : Nat) : ℚ) / (progress_total walk : ℚ))) ++
  [1]

/-- The progress values an `index_home` run over `disk` rooted at `root`
sends. -/
def index_home_sends (disk : Disk) (root : Path) : List ℚ :=
  progress_sends ((walkEntries disk root).map Prod.snd)

/-- `SearchEngine::new` creates the progress watch channel with initial value
`1.0` ("start at 1.0 (done)"). -/
def engineInitialProgress : ℚ := 1

/-! ## Derived notions used by the statements -/

/-- At most one document per `path` term: the store invariant the
delete-then-add upsert discipline maintains. -/
def uniquePaths (idx : List IndexedDoc) : Prop :=
  (idx.map IndexedDoc.path).Nodup

/-- The document (if any) that `index_single_file` upserts for `p`. -/
def fileDocOf (disk : Disk) (p : Path) : Option IndexedDoc :=
  match diskLookup disk p with
  | some (.file size text) =>
    if sizeCeiling < size then none
    else
      match text with
      | none => none
      | some content =>
        if content.toList.contains nullChar then none
        else some (fileDoc p content)
  | _ => none

/-- An entry that exists on disk but that `index_single_file` skips: a
directory, a non-regular entry, or a file that is oversized, undecodable, or
contains a NUL byte. -/
def unindexableEntry : FsEntry → Prop
  | .file size text =>
    sizeCeiling < size ∨ text = none ∨ ∃ t, text = some t ∧ nullChar ∈ t.toList
  | .dir _ => True
  | .other _ => True

/-- Every `add_document` in a trace sits immediately after a `delete_term` of
the very path the document carries (the upsert discipline, stated over
adjacent trace positions). -/
def addsPrecededByDelete (ops : List WriterOp) : Prop :=
  (∀ d, ops.head? = some (.addDocument d) → False) ∧
    ops.Chain' (fun a b => ∀ d, b = .addDocument d → a = .deleteTerm d.path)

/-! ## Trace helper lemmas -/

theorem applyWriterOps_append (idx : List IndexedDoc) (a b : List WriterOp) :
    applyWriterOps idx (a ++ b) = applyWriterOps (applyWriterOps idx a) b :=
  List.foldl_append ..

theorem applyWriterOps_nil (idx : List IndexedDoc) : applyWriterOps idx [] = idx := rfl

theorem applyWriterOps_commit (idx : List IndexedDoc) :
    applyWriterOps idx [.commit] = idx := rfl

theorem applyWriterOps_upsert (idx : List IndexedDoc) (p : Path) (d : IndexedDoc) :
    applyWriterOps idx [.deleteTerm p, .addDocument d] =
      idx.filter (fun x => x.path ≠ p) ++ [d] := rfl

theorem applyWriterOps_delete (idx : List IndexedDoc) (p : Path) :
    applyWriterOps idx [.deleteTerm p] = idx.filter (fun x => x.path ≠ p) := rfl

/-- Membership after a trace: a document in the result was in the initial
state or was added somewhere in the trace. -/
theorem mem_applyWriterOps {d : IndexedDoc} :
    ∀ {ops : List WriterOp} {idx : List IndexedDoc},
      d ∈ applyWriterOps idx ops → d ∈ idx ∨ WriterOp.addDocument d ∈ ops := by
  intro ops
  induction ops with
  | nil => exact fun h => Or.inl h
  | cons o rest ih =>
    intro idx h
    have h' := @ih (applyWriterOp idx o) h
    rcases h' with h' | h'
    · cases o with
      | deleteTerm p =>
        have := List.mem_of_mem_filter h'
        exact Or.inl this
      | addDocument a =>
        rcases List.mem_append.1 h' with h'' | h''
        · exact Or.inl h''
        · simp only [List.mem_singleton] at h''
          subst h''
          exact Or.inr (by simp)
      | commit => exact Or.inl h'
    · exact Or.inr (List.mem_cons_of_mem _ h')

/-- `fileDocOf` determines the trace `index_single_file` emits. -/
theorem index_single_file_eq (disk : Disk) (p : Path) :
    index_single_file disk p =
      match fileDocOf disk p with
      | some d => [.deleteTerm p, .addDocument d]
      | none => [] := by
  unfold index_single_file fileDocOf
  cases diskLookup disk p with
  | none => rfl
  | some e =>
    cases e with
    | file size text =>
      by_cases hs : sizeCeiling < size
      · simp [hs]
      · cases text with
        | none => simp [hs]
        | some c =>
          by_cases hn : nullChar ∈ c.data
          · simp [hs, hn]
          · simp [hs, hn]
    | dir _ => rfl
    | other _ => rfl

theorem fileDocOf_path {disk : Disk} {p : Path} {d : IndexedDoc}
    (h : fileDocOf disk p = some d) : d.path = p := by
  unfold fileDocOf at h
  cases he : diskLookup disk p with
  | none => rw [he] at h; exact absurd h (by simp)
  | some e =>
    rw [he] at h
    cases e with
    | file size text =>
      by_cases hs : sizeCeiling < size
      · simp [hs] at h
      · cases text with
        | none => simp [hs] at h
        | some c =>
          by_cases hn : nullChar ∈ c.data
          · simp [hs, hn] at h
          · simp [hs, hn] at h
            rw [← h]
            rfl
    | dir _ => simp at h
    | other _ => simp at h

/-- The three shapes of a batch element's trace. -/
theorem process_changes_elem_eq (disk : Disk) (p : Path) :
    process_changes_elem disk p =
      if (diskLookup disk p).isSome then
        (match fileDocOf disk p with
         | some d => [.deleteTerm p, .addDocument d]
         | none => [])
      else [.deleteTerm p] := by
  unfold process_changes_elem
  rw [index_single_file_eq]

/-- `fileDocOf` succeeds only on existing entries. -/
theorem fileDocOf_isSome {disk : Disk} {p : Path} {d : IndexedDoc}
    (h : fileDocOf disk p = some d) : (diskLookup disk p).isSome := by
  unfold fileDocOf at h
  cases he : diskLookup disk p with
  | none => rw [he] at h; exact absurd h (by simp)
  | some e => simp

/-- The sub-list of documents carrying the exact path term `p`. -/
def pathProj (p : Path) (idx : List IndexedDoc) : List IndexedDoc :=
  idx.filter (fun d => d.path = p)

theorem pathProj_append (p : Path) (a b : List IndexedDoc) :
    pathProj p (a ++ b) = pathProj p a ++ pathProj p b :=
  List.filter_append ..

theorem pathProj_filter_ne {q p : Path} (h : q ≠ p) (idx : List IndexedDoc) :
    pathProj p (idx.filter (fun x => x.path ≠ q)) = pathProj p idx := by
  unfold pathProj
  rw [List.filter_filter]
  refine List.filter_congr ?_
  intro d _
  by_cases hd : d.path = p
  · subst hd
    simp [Ne.symm h]
  · simp [hd]

theorem pathProj_filter_self (p : Path) (idx : List IndexedDoc) :
    pathProj p (idx.filter (fun x => x.path ≠ p)) = [] := by
  unfold pathProj
  rw [List.filter_filter]
  have : ∀ d ∈ idx, (decide (d.path = p) && decide (d.path ≠ p)) = false := by
    intro d _
    by_cases hd : d.path = p <;> simp [hd]
  rw [List.filter_congr this]
  exact List.filter_false idx

theorem pathProj_singleton_ne {p : Path} {d : IndexedDoc} (h : d.path ≠ p) :
    pathProj p [d] = [] := by
  simp [pathProj, h]

theorem pathProj_singleton_self {p : Path} {d : IndexedDoc} (h : d.path = p) :
    pathProj p [d] = [d] := by
  simp [pathProj, h]

/-- A batch element for a different path never disturbs the documents at `p`. -/
theorem pathProj_elem_ne (disk : Disk) {q p : Path} (h : q ≠ p) (idx : List IndexedDoc) :
    pathProj p (applyWriterOps idx (process_changes_elem disk q)) = pathProj p idx := by
  rw [process_changes_elem_eq]
  by_cases hex : (diskLookup disk q).isSome
  · rw [if_pos hex]
    cases hf : fileDocOf disk q with
    | some d =>
      rw [applyWriterOps_upsert, pathProj_append, pathProj_filter_ne h,
        pathProj_singleton_ne (by rw [fileDocOf_path hf]; exact h), List.append_nil]
    | none => rfl
  · rw [if_neg hex, applyWriterOps_delete, pathProj_filter_ne h]

/-- An existing-but-unindexable path contributes an empty trace. -/
theorem process_changes_elem_skip {disk : Disk} {p : Path}
    (hex : (diskLookup disk p).isSome) (hskip : fileDocOf disk p = none) :
    process_changes_elem disk p = [] := by
  rw [process_changes_elem_eq, hskip]
  simp [hex]

/-- A missing path's element wipes the documents at `p`. -/
theorem pathProj_elem_missing {disk : Disk} {p : Path}
    (h : diskLookup disk p = none) (idx : List IndexedDoc) :
    pathProj p (applyWriterOps idx (process_changes_elem disk p)) = [] := by
  rw [process_changes_elem_eq, h]
  rw [if_neg (by simp), applyWriterOps_delete, pathProj_filter_self]

/-- An upserted path's element leaves exactly its fresh document at `p`. -/
theorem pathProj_elem_upsert {disk : Disk} {p : Path} {d : IndexedDoc}
    (h : fileDocOf disk p = some d) (idx : List IndexedDoc) :
    pathProj p (applyWriterOps idx (process_changes_elem disk p)) = [d] := by
  rw [process_changes_elem_eq, h]
  rw [if_pos (fileDocOf_isSome h), applyWriterOps_upsert, pathProj_append,
    pathProj_filter_self, pathProj_singleton_self (fileDocOf_path h), List.nil_append]

/-- The state after `process_changes` is the fold of the per-path traces (the
final commit does not change the document list). -/
theorem process_changes_state_eq (disk : Disk) (paths : List Path) (idx : List IndexedDoc) :
    process_changes_state disk paths idx =
      applyWriterOps idx (paths.flatMap (process_changes_elem disk)) := by
  rw [process_changes_state, process_changes, applyWriterOps_append, applyWriterOps_commit]

/-- A whole batch whose elements targeting `p` are all no-ops leaves the
documents at `p` untouched. -/
theorem pathProj_batch_preserved (disk : Disk) (p : Path) :
    ∀ (paths : List Path) (idx : List IndexedDoc),
      (∀ q ∈ paths, q = p → process_changes_elem disk q = []) →
      pathProj p (applyWriterOps idx (paths.flatMap (process_changes_elem disk))) =
        pathProj p idx := by
  intro paths
  induction paths with
  | nil => intro idx _; rfl
  | cons q qs ih =>
    intro idx hq
    rw [List.flatMap_cons, applyWriterOps_append,
      ih _ (fun r hr hrp => hq r (List.mem_cons_of_mem _ hr) hrp)]
    by_cases hqp : q = p
    · rw [hq q (List.mem_cons_self ..) hqp, applyWriterOps_nil]
    · exact pathProj_elem_ne disk hqp idx

/-- Once the documents at a missing path are gone, no later batch element
brings them back. -/
theorem pathProj_batch_stays_missing {disk : Disk} {p : Path}
    (h : diskLookup disk p = none) :
    ∀ (paths : List Path) (idx : List IndexedDoc), pathProj p idx = [] →
      pathProj p (applyWriterOps idx (paths.flatMap (process_changes_elem disk))) = [] := by
  intro paths
  induction paths with
  | nil => intro idx he; exact he
  | cons q qs ih =>
    intro idx he
    rw [List.flatMap_cons, applyWriterOps_append]
    by_cases hqp : q = p
    · subst hqp
      exact ih _ (pathProj_elem_missing h idx)
    · exact ih _ ((pathProj_elem_ne disk hqp idx).trans he)

/-- A missing path occurring anywhere in the batch ends up with no document. -/
theorem pathProj_batch_missing {disk : Disk} {p : Path}
    (h : diskLookup disk p = none) :
    ∀ (paths : List Path) (idx : List IndexedDoc), p ∈ paths →
      pathProj p (applyWriterOps idx (paths.flatMap (process_changes_elem disk))) = [] := by
  intro paths
  induction paths with
  | nil => intro idx hp; cases hp
  | cons q qs ih =>
    intro idx hp
    rw [List.flatMap_cons, applyWriterOps_append]
    by_cases hqp : q = p
    · subst hqp
      exact pathProj_batch_stays_missing h qs _ (pathProj_elem_missing h idx)
    · exact ih _ ((List.mem_cons.1 hp).resolve_left (fun he => hqp he.symm))

/-- Once the fresh upserted document is the only one at `p`, later batch
elements keep it so (a repeated occurrence of `p` re-upserts the same
document, since the disk is the one observed by this call). -/
theorem pathProj_batch_stays_upsert {disk : Disk} {p : Path} {d : IndexedDoc}
    (h : fileDocOf disk p = some d) :
    ∀ (paths : List Path) (idx : List IndexedDoc), pathProj p idx = [d] →
      pathProj p (applyWriterOps idx (paths.flatMap (process_changes_elem disk))) = [d] := by
  intro paths
  induction paths with
  | nil => intro idx he; exact he
  | cons q qs ih =>
    intro idx he
    rw [List.flatMap_cons, applyWriterOps_append]
    by_cases hqp : q = p
    · subst hqp
      exact ih _ (pathProj_elem_upsert h idx)
    · exact ih _ ((pathProj_elem_ne disk hqp idx).trans he)

/-- An indexable file occurring anywhere in the batch ends up with exactly its
fresh document. -/
theorem pathProj_batch_upsert {disk : Disk} {p : Path} {d : IndexedDoc}
    (h : fileDocOf disk p = some d) :
    ∀ (paths : List Path) (idx : List IndexedDoc), p ∈ paths →
      pathProj p (applyWriterOps idx (paths.flatMap (process_changes_elem disk))) = [d] := by
  intro paths
  induction paths with
  | nil => intro idx hp; cases hp
  | cons q qs ih =>
    intro idx hp
    rw [List.flatMap_cons, applyWriterOps_append]
    by_cases hqp : q = p
    · subst hqp
      exact pathProj_batch_stays_upsert h qs _ (pathProj_elem_upsert h idx)
    · exact ih _ ((List.mem_cons.1 hp).resolve_left (fun he => hqp he.symm))

/-- A member of the `p`-projection is a member of the list. -/
theorem mem_of_pathProj {p : Path} {d : IndexedDoc} {idx : List IndexedDoc}
    (h : d ∈ pathProj p idx) : d ∈ idx :=
  List.mem_of_mem_filter h

/-- No batch element's trace contains a commit. -/
theorem commit_not_mem_elem (disk : Disk) (p : Path) :
    WriterOp.commit ∉ process_changes_elem disk p := by
  rw [process_changes_elem_eq]
  by_cases hex : (diskLookup disk p).isSome
  · rw [if_pos hex]
    cases hf : fileDocOf disk p with
    | some d => simp
    | none => simp
  · rw [if_neg hex]
    simp

/-- `process_changes` commits exactly once per batch. -/
theorem process_changes_commit_count (disk : Disk) (paths : List Path) :
    (process_changes disk paths).count WriterOp.commit = 1 := by
  rw [process_changes, List.count_append]
  have h0 : (paths.flatMap (process_changes_elem disk)).count WriterOp.commit = 0 := by
    rw [List.count_eq_zero]
    intro hmem
    rcases List.mem_flatMap.1 hmem with ⟨q, _, hq⟩
    exact commit_not_mem_elem disk q hq
  rw [h0, List.count_singleton_self]

/-! ## Claim C2: `process_changes` batch semantics -/

theorem fileDocOf_none_of_unindexable {disk : Disk} {p : Path} {e : FsEntry}
    (h : diskLookup disk p = some e) (hu : unindexableEntry e) :
    fileDocOf disk p = none := by
  unfold fileDocOf
  rw [h]
  cases e with
  | file size text =>
    rcases hu with hs | ht | ⟨t, hteq, hn⟩
    · simp [hs]
    · subst ht
      by_cases hs : sizeCeiling < size <;> simp [hs]
    · subst hteq
      by_cases hs : sizeCeiling < size
      · simp [hs]
      · have hn' : nullChar ∈ t.data := hn
        simp [hs, hn']
  | dir _ => rfl
  | other _ => rfl

theorem fileDocOf_file {disk : Disk} {p : Path} {size : Nat} {t : String}
    (h : diskLookup disk p = some (.file size (some t)))
    (hs : size ≤ sizeCeiling) (hn : nullChar ∉ t.toList) :
    fileDocOf disk p = some (fileDoc p t) := by
  unfold fileDocOf
  rw [h]
  have hs' : ¬ sizeCeiling < size := Nat.not_lt.2 hs
  have hn' : nullChar ∉ t.data := hn
  simp [hs', hn']

def cDiskC2 : Disk := [(["h", "d"], FsEntry.dir 4096)]

/-- C2, counterexample: the claim says an existing directory in the batch is
upserted as an `is_directory = 1` entry, but `process_changes` routes every
existing path through `index_single_file`, whose `read_to_string` fails on a
directory, so the batch leaves the index empty. -/
theorem process_changes_directory_skipped_cex :
    diskLookup cDiskC2 ["h", "d"] = some (FsEntry.dir 4096) ∧
      process_changes_state cDiskC2 [["h", "d"]] [] = [] ∧
      ¬ ∃ d ∈ process_changes_state cDiskC2 [["h", "d"]] [], d.is_directory = 1 := by
  refine ⟨by decide, by decide, ?_⟩
  intro ⟨d, hd, _⟩
  rw [show process_changes_state cDiskC2 [["h", "d"]] [] = [] from by decide] at hd
  cases hd

/-- C2, amended: `process_changes` commits exactly once per batch; an existing
path is handed to the file-indexing routine, so an existing directory (or any
other unindexable entry) contributes nothing; a missing path ends with no
document at its exact path term; an existing indexable regular file ends with
exactly its fresh `is_directory = 0` document. -/
theorem process_changes_amended (disk : Disk) (paths : List Path) (idx : List IndexedDoc) :
    (process_changes disk paths).count WriterOp.commit = 1 ∧
    (∀ p ∈ paths, ∀ e, diskLookup disk p = some e → unindexableEntry e →
      process_changes_elem disk p = []) ∧
    (∀ p ∈ paths, diskLookup disk p = none →
      pathProj p (process_changes_state disk paths idx) = []) ∧
    (∀ p ∈ paths, ∀ size t, diskLookup disk p = some (.file size (some t)) →
      size ≤ sizeCeiling → nullChar ∉ t.toList →
      pathProj p (process_changes_state disk paths idx) = [fileDoc p t] ∧
        (fileDoc p t).is_directory = 0) := by
  refine ⟨process_changes_commit_count disk paths, ?_, ?_, ?_⟩
  · intro p _ e he hu
    exact process_changes_elem_skip (by rw [he]; rfl) (fileDocOf_none_of_unindexable he hu)
  · intro p hp hnone
    rw [process_changes_state_eq]
    exact pathProj_batch_missing hnone paths idx hp
  · intro p hp size t he hs hn
    refine ⟨?_, rfl⟩
    rw [process_changes_state_eq]
    exact pathProj_batch_upsert (fileDocOf_file he hs hn) paths idx hp

def wDiskC2 : Disk :=
  [(["h", "f"], FsEntry.file 2 (some "ok")), (["h", "d"], FsEntry.dir 0)]

def wBatchC2 : List Path := [["h", "f"], ["h", "d"], ["h", "m"]]

/-- C2, witness: the amended theorem applied to a concrete batch holding an
indexable file, an existing directory, and a missing path. -/
theorem process_changes_amended_witness :
    (process_changes wDiskC2 wBatchC2).count WriterOp.commit = 1 ∧
      process_changes_elem wDiskC2 ["h", "d"] = [] ∧
      pathProj ["h", "m"] (process_changes_state wDiskC2 wBatchC2 []) = [] ∧
      pathProj ["h", "f"] (process_changes_state wDiskC2 wBatchC2 []) =
        [fileDoc ["h", "f"] "ok"] := by
  obtain ⟨h1, h2, h3, h4⟩ := process_changes_amended wDiskC2 wBatchC2 []
  exact ⟨h1,
    h2 ["h", "d"] (by decide) (FsEntry.dir 0) (by decide) trivial,
    h3 ["h", "m"] (by decide) (by decide),
    (h4 ["h", "f"] (by decide) 2 "ok" (by decide) (by decide) (by decide)).1⟩

/-! ## Claim C10: a skipped re-index performs no delete -/

/-- C10: when a path that still exists on disk can no longer be indexed (it is
now a directory or other non-regular entry, oversized, undecodable, or holds a
NUL byte), `process_changes` leaves the documents at that path exactly as they
were — the delete-by-path-term is only ever issued immediately before adding a
fresh document. -/
theorem process_changes_skip_preserves_entry (disk : Disk) (p : Path) (ent : FsEntry)
    (batch : List Path) (idx : List IndexedDoc)
    (hex : diskLookup disk p = some ent) (hu : unindexableEntry ent) :
    pathProj p (process_changes_state disk batch idx) = pathProj p idx ∧
      ∀ d ∈ idx, d.path = p → d ∈ process_changes_state disk batch idx := by
  have helem : process_changes_elem disk p = [] :=
    process_changes_elem_skip (by rw [hex]; rfl) (fileDocOf_none_of_unindexable hex hu)
  have hproj : pathProj p (process_changes_state disk batch idx) = pathProj p idx := by
    rw [process_changes_state_eq]
    exact pathProj_batch_preserved disk p batch idx (fun q _ hq => by rw [hq]; exact helem)
  refine ⟨hproj, ?_⟩
  intro d hd hdp
  have : d ∈ pathProj p (process_changes_state disk batch idx) := by
    rw [hproj]
    exact List.mem_filter.2 ⟨hd, by simp [hdp]⟩
  exact mem_of_pathProj this

def wDiskC10 : Disk := [(["h", "big"], FsEntry.file (sizeCeiling + 1) (some "x"))]

/-- C10, witness: an oversized file's stale document survives the batch. -/
theorem process_changes_skip_preserves_entry_witness :
    diskLookup wDiskC10 ["h", "big"] = some (FsEntry.file (sizeCeiling + 1) (some "x")) ∧
      fileDoc ["h", "big"] "old" ∈
        process_changes_state wDiskC10 [["h", "big"]] [fileDoc ["h", "big"] "old"] := by
  refine ⟨by decide, ?_⟩
  exact (process_changes_skip_preserves_entry wDiskC10 ["h", "big"]
      (FsEntry.file (sizeCeiling + 1) (some "x")) [["h", "big"]]
      [fileDoc ["h", "big"] "old"] (by decide) (Or.inl (by decide))).2
    (fileDoc ["h", "big"] "old") (by simp) rfl
/-! ## Claim C3: upsert discipline and path uniqueness -/

/-- The shapes a per-entry writer trace can take: nothing, a bare delete, a
delete immediately followed by the add of a document carrying that same path,
or the final commit. -/
def GoodChunk (ops : List WriterOp) : Prop :=
  ops = [] ∨ (∃ p, ops = [.deleteTerm p]) ∨
    (∃ d : IndexedDoc, ops = [.deleteTerm d.path, .addDocument d]) ∨ ops = [.commit]

theorem goodChunk_index_single_file (disk : Disk) (p : Path) :
    GoodChunk (index_single_file disk p) := by
  rw [index_single_file_eq]
  cases hf : fileDocOf disk p with
  | some d =>
    refine Or.inr (Or.inr (Or.inl ⟨d, ?_⟩))
    rw [fileDocOf_path hf]
  | none => exact Or.inl rfl

theorem goodChunk_index_single_directory (p : Path) :
    GoodChunk (index_single_directory p) :=
  Or.inr (Or.inr (Or.inl ⟨dirDoc p, rfl⟩))

theorem goodChunk_index_home_entry (disk : Disk) (e : Path × FsEntry) :
    GoodChunk (index_home_entry disk e) := by
  obtain ⟨p, k⟩ := e
  cases k with
  | file size text => exact goodChunk_index_single_file disk p
  | dir _ => exact goodChunk_index_single_directory p
  | other _ => exact Or.inl rfl

theorem goodChunk_process_changes_elem (disk : Disk) (p : Path) :
    GoodChunk (process_changes_elem disk p) := by
  rw [process_changes_elem_eq]
  by_cases hex : (diskLookup disk p).isSome
  · rw [if_pos hex]
    cases hf : fileDocOf disk p with
    | some d =>
      refine Or.inr (Or.inr (Or.inl ⟨d, ?_⟩))
      rw [fileDocOf_path hf]
    | none => exact Or.inl rfl
  · rw [if_neg hex]
    exact Or.inr (Or.inl ⟨p, rfl⟩)

theorem uniquePaths_filter (f : IndexedDoc → Bool) {idx : List IndexedDoc}
    (h : uniquePaths idx) : uniquePaths (idx.filter f) :=
  List.Nodup.sublist ((List.filter_sublist idx).map IndexedDoc.path) h

theorem uniquePaths_upsert (d : IndexedDoc) {idx : List IndexedDoc}
    (h : uniquePaths idx) :
    uniquePaths (idx.filter (fun x => x.path ≠ d.path) ++ [d]) := by
  unfold uniquePaths
  rw [List.map_append]
  refine List.Nodup.append (uniquePaths_filter _ h) (List.nodup_singleton _) ?_
  intro x hx hx1
  simp only [List.map_singleton, List.mem_singleton] at hx1
  rcases List.mem_map.1 hx with ⟨y, hy, hyx⟩
  have := List.of_mem_filter hy
  rw [hyx] at this
  rw [hx1] at this
  simp at this

theorem uniquePaths_goodChunk {ops : List WriterOp} (hg : GoodChunk ops)
    {idx : List IndexedDoc} (h : uniquePaths idx) :
    uniquePaths (applyWriterOps idx ops) := by
  rcases hg with rfl | ⟨p, rfl⟩ | ⟨d, rfl⟩ | rfl
  · exact h
  · exact uniquePaths_filter _ h
  · exact uniquePaths_upsert d h
  · exact h

theorem uniquePaths_flatMap {α : Type} (f : α → List WriterOp)
    (hf : ∀ a, GoodChunk (f a)) :
    ∀ (L : List α) {idx : List IndexedDoc}, uniquePaths idx →
      uniquePaths (applyWriterOps idx (L.flatMap f)) := by
  intro L
  induction L with
  | nil => exact fun h => h
  | cons a L ih =>
    intro idx h
    rw [List.flatMap_cons, applyWriterOps_append]
    exact ih (uniquePaths_goodChunk (hf a) h)

theorem uniquePaths_storeOp (o : StoreOp) {idx : List IndexedDoc}
    (h : uniquePaths idx) : uniquePaths (applyWriterOps idx (storeOpTrace o)) := by
  cases o with
  | rebuild disk root =>
    rw [storeOpTrace, index_home, applyWriterOps_append, applyWriterOps_commit]
    exact uniquePaths_flatMap _ (goodChunk_index_home_entry disk) _ h
  | changes disk paths =>
    rw [storeOpTrace, process_changes, applyWriterOps_append, applyWriterOps_commit]
    exact uniquePaths_flatMap _ (goodChunk_process_changes_elem disk) _ h

theorem uniquePaths_runStore (ops : List StoreOp) :
    ∀ {idx : List IndexedDoc}, uniquePaths idx → uniquePaths (runStore ops idx) := by
  induction ops with
  | nil => exact fun h => h
  | cons o os ih =>
    intro idx h
    exact ih (uniquePaths_storeOp o h)

theorem pathProj_length_le_one (p : Path) :
    ∀ {idx : List IndexedDoc}, uniquePaths idx → (pathProj p idx).length ≤ 1 := by
  intro idx
  induction idx with
  | nil => intro _; simp [pathProj]
  | cons d rest ih =>
    intro h
    have hrest : uniquePaths rest := (List.nodup_cons.1 h).2
    have hd : d.path ∉ rest.map IndexedDoc.path := (List.nodup_cons.1 h).1
    by_cases hp : d.path = p
    · have hnil : pathProj p rest = [] := by
        refine List.filter_eq_nil_iff.2 ?_
        intro x hx
        simp only [decide_eq_true_eq]
        intro hxp
        exact hd (List.mem_map.2 ⟨x, hx, by rw [hxp, hp]⟩)
      have hcons : pathProj p (d :: rest) = d :: pathProj p rest := by
        simp [pathProj, List.filter_cons, hp]
      rw [hcons, hnil]
      simp
    · have : pathProj p (d :: rest) = pathProj p rest := by
        simp [pathProj, List.filter_cons, hp]
      rw [this]
      exact ih hrest

theorem addsPrecededByDelete_append {A B : List WriterOp}
    (hA : addsPrecededByDelete A) (hB : addsPrecededByDelete B) :
    addsPrecededByDelete (A ++ B) := by
  obtain ⟨hA1, hA2⟩ := hA
  obtain ⟨hB1, hB2⟩ := hB
  constructor
  · cases A with
    | nil => exact hB1
    | cons a A' =>
      intro d hd
      exact hA1 d hd
  · rw [List.chain'_append]
    refine ⟨hA2, hB2, ?_⟩
    intro x _ y hy d hyd
    exact absurd hy (by rw [hyd]; intro hc; exact hB1 d hc)

theorem addsPrecededByDelete_goodChunk {ops : List WriterOp} (h : GoodChunk ops) :
    addsPrecededByDelete ops := by
  rcases h with rfl | ⟨p, rfl⟩ | ⟨d, rfl⟩ | rfl
  · exact ⟨(fun d hd => nomatch hd), List.chain'_nil⟩
  · exact ⟨(fun d hd => nomatch hd), List.chain'_singleton _⟩
  · refine ⟨(fun d' hd' => nomatch hd'), ?_⟩
    refine List.chain'_cons.2 ⟨?_, List.chain'_singleton _⟩
    intro d' hd'
    cases hd'
    rfl
  · exact ⟨(fun d hd => nomatch hd), List.chain'_singleton _⟩

theorem addsPrecededByDelete_flatMap {α : Type} (f : α → List WriterOp)
    (hf : ∀ a, GoodChunk (f a)) (L : List α) :
    addsPrecededByDelete (L.flatMap f) := by
  induction L with
  | nil => exact ⟨(fun d hd => nomatch hd), List.chain'_nil⟩
  | cons a L ih =>
    rw [List.flatMap_cons]
    exact addsPrecededByDelete_append (addsPrecededByDelete_goodChunk (hf a)) ih

theorem addsPrecededByDelete_storeOpTrace (o : StoreOp) :
    addsPrecededByDelete (storeOpTrace o) := by
  cases o with
  | rebuild disk root =>
    rw [storeOpTrace, index_home]
    exact addsPrecededByDelete_append
      (addsPrecededByDelete_flatMap _ (goodChunk_index_home_entry disk) _)
      (addsPrecededByDelete_goodChunk (Or.inr (Or.inr (Or.inr rfl))))
  | changes disk paths =>
    rw [storeOpTrace, process_changes]
    exact addsPrecededByDelete_append
      (addsPrecededByDelete_flatMap _ (goodChunk_process_changes_elem disk) _)
      (addsPrecededByDelete_goodChunk (Or.inr (Or.inr (Or.inr rfl))))

/-- C3: starting from a store whose paths are unique (in particular the fresh
empty index), any finite sequence of `index_home` and `process_changes` calls
keeps at most one document per path, and in every trace those calls issue,
each `add_document` sits immediately after a `delete_term` of the document's
own exact path (under the same held writer lock, since the whole trace runs
inside one lock acquisition). -/
theorem upsert_uniqueness (ops : List StoreOp) (idx : List IndexedDoc)
    (h : uniquePaths idx) :
    uniquePaths (runStore ops idx) ∧
      (∀ p, (pathProj p (runStore ops idx)).length ≤ 1) ∧
      ∀ o ∈ ops, addsPrecededByDelete (storeOpTrace o) :=
  ⟨uniquePaths_runStore ops h,
    fun p => pathProj_length_le_one p (uniquePaths_runStore ops h),
    fun o _ => addsPrecededByDelete_storeOpTrace o⟩

def wDiskC3 : Disk :=
  [(["h", "Documents"], FsEntry.dir 0), (["h", "Documents", "a.txt"], FsEntry.file 1 (some "a"))]

def wOpsC3 : List StoreOp :=
  [.rebuild wDiskC3 ["h", "Documents"], .changes wDiskC3 [["h", "Documents", "a.txt"]]]

/-- C3, witness: the uniqueness invariant on a concrete rebuild-then-change
run from the fresh empty index. -/
theorem upsert_uniqueness_witness :
    uniquePaths (runStore wOpsC3 []) ∧
      (∀ p, (pathProj p (runStore wOpsC3 [])).length ≤ 1) ∧
      ∀ o ∈ wOpsC3, addsPrecededByDelete (storeOpTrace o) :=
  upsert_uniqueness wOpsC3 [] (by simp [uniquePaths])
/-! ## Claim C8: idempotent rebuild -/

/-- The document (if any) a walked entry upserts during `index_home`. -/
def entryDoc (disk : Disk) (e : Path × FsEntry) : Option IndexedDoc :=
  match e.2 with
  | .file _ _ => fileDocOf disk e.1
  | .dir _ => some (dirDoc e.1)
  | .other _ => none

theorem index_home_entry_eq (disk : Disk) (e : Path × FsEntry) :
    index_home_entry disk e =
      match entryDoc disk e with
      | some d => [.deleteTerm e.1, .addDocument d]
      | none => [] := by
  obtain ⟨p, k⟩ := e
  cases k with
  | file size text => exact index_single_file_eq disk p
  | dir _ => rfl
  | other _ => rfl

theorem entryDoc_path {disk : Disk} {e : Path × FsEntry} {d : IndexedDoc}
    (h : entryDoc disk e = some d) : d.path = e.1 := by
  obtain ⟨p, k⟩ := e
  cases k with
  | file size text => exact fileDocOf_path h
  | dir _ => cases h; rfl
  | other _ => cases h

/-- The documents a rebuild over `disk` rooted at `root` upserts, in walk
order. -/
def homeDocs (disk : Disk) (root : Path) : List IndexedDoc :=
  (walkEntries disk root).filterMap (entryDoc disk)

/-- The paths those documents carry. -/
def homePaths (disk : Disk) (root : Path) : List Path :=
  (homeDocs disk root).map IndexedDoc.path

theorem filterMap_entryDoc_paths {disk : Disk} :
    ∀ {L : List (Path × FsEntry)} {q : Path},
      q ∈ (L.filterMap (entryDoc disk)).map IndexedDoc.path → q ∈ L.map Prod.fst := by
  intro L q hq
  rcases List.mem_map.1 hq with ⟨d, hd, hdq⟩
  rcases List.mem_filterMap.1 hd with ⟨e, he, hde⟩
  exact List.mem_map.2 ⟨e, he, by rw [← hdq, entryDoc_path hde]⟩

/-- Normal form of a rebuild's per-entry trace over entries with distinct
paths: the incoming documents at upserted paths are dropped and the fresh
documents appended in walk order. -/
theorem applyWriterOps_entries (disk : Disk) :
    ∀ (L : List (Path × FsEntry)) (idx : List IndexedDoc),
      (L.map Prod.fst).Nodup →
      applyWriterOps idx (L.flatMap (index_home_entry disk)) =
        idx.filter
            (fun d => d.path ∉ (L.filterMap (entryDoc disk)).map IndexedDoc.path) ++
          L.filterMap (entryDoc disk) := by
  intro L
  induction L with
  | nil =>
    intro idx _
    simp [applyWriterOps]
  | cons e L ih =>
    intro idx hnd
    rw [List.map_cons] at hnd
    have hndL : (L.map Prod.fst).Nodup := (List.nodup_cons.1 hnd).2
    have hhd : e.1 ∉ L.map Prod.fst := (List.nodup_cons.1 hnd).1
    rw [List.flatMap_cons, applyWriterOps_append, index_home_entry_eq]
    cases hde : entryDoc disk e with
    | none =>
      rw [applyWriterOps_nil, ih idx hndL, List.filterMap_cons, hde]
    | some d =>
      have hdp : d.path = e.1 := entryDoc_path hde
      rw [applyWriterOps_upsert, ih _ hndL, List.filter_append]
      have hd_not : d.path ∉ (L.filterMap (entryDoc disk)).map IndexedDoc.path := by
        intro hc
        exact hhd (by rw [← hdp]; exact filterMap_entryDoc_paths hc)
      have hsingle :
          List.filter
              (fun x => x.path ∉ (L.filterMap (entryDoc disk)).map IndexedDoc.path) [d] =
            [d] := by
        simp [hd_not]
      rw [hsingle, List.filter_filter]
      have hcongr :
          ∀ x ∈ idx,
            (decide (x.path ∉ (L.filterMap (entryDoc disk)).map IndexedDoc.path) &&
                decide (x.path ≠ e.1)) =
              decide
                (x.path ∉
                  ((e :: L).filterMap (entryDoc disk)).map IndexedDoc.path) := by
        intro x _
        rw [List.filterMap_cons, hde]
        by_cases h1 : x.path = e.1
        · simp [h1, hdp]
        · by_cases h2 : x.path ∈ (L.filterMap (entryDoc disk)).map IndexedDoc.path
          · simp [h1, h2, hdp]
          · simp [h1, h2, hdp]
      rw [List.filter_congr hcongr]
      rw [List.filterMap_cons, hde]
      simp

/-- The committed state after `index_home`, in normal form. -/
theorem index_home_state_eq (disk : Disk) (root : Path) (idx : List IndexedDoc)
    (h : ((walkEntries disk root).map Prod.fst).Nodup) :
    index_home_state disk root idx =
      idx.filter (fun d => d.path ∉ homePaths disk root) ++ homeDocs disk root := by
  rw [index_home_state, index_home, applyWriterOps_append, applyWriterOps_commit]
  exact applyWriterOps_entries disk _ idx h

theorem walk_paths_nodup {disk : Disk} {root : Path}
    (h : (disk.map Prod.fst).Nodup) :
    ((walkEntries disk root).map Prod.fst).Nodup :=
  List.Nodup.sublist ((List.filter_sublist disk).map Prod.fst) h

/-- C8: against an unchanged tree (each filesystem path occurring once), a
second `index_home` run reproduces exactly the state of the first, hence the
same document count and the same results for any search evaluated over hits
drawn from that state. -/
theorem rebuild_idempotent (disk : Disk) (root : Path) (idx : List IndexedDoc)
    (h : (disk.map Prod.fst).Nodup) :
    index_home_state disk root (index_home_state disk root idx) =
        index_home_state disk root idx ∧
      (index_home_state disk root (index_home_state disk root idx)).length =
        (index_home_state disk root idx).length ∧
      ∀ (select : List IndexedDoc → List IndexedDoc) (rdisk : Disk) (q : String),
        index_search rdisk q
            (select (index_home_state disk root (index_home_state disk root idx))) =
          index_search rdisk q (select (index_home_state disk root idx)) := by
  have hw : ((walkEntries disk root).map Prod.fst).Nodup := walk_paths_nodup h
  have hmain :
      index_home_state disk root (index_home_state disk root idx) =
        index_home_state disk root idx := by
    rw [index_home_state_eq disk root idx hw,
      index_home_state_eq disk root _ hw, List.filter_append]
    have hdocs :
        List.filter (fun d => d.path ∉ homePaths disk root) (homeDocs disk root) = [] := by
      refine List.filter_eq_nil_iff.2 ?_
      intro d hd
      simp only [decide_eq_true_eq, Decidable.not_not]
      exact List.mem_map.2 ⟨d, hd, rfl⟩
    have hfilter :
        List.filter (fun d => d.path ∉ homePaths disk root)
            (idx.filter (fun d => d.path ∉ homePaths disk root)) =
          idx.filter (fun d => d.path ∉ homePaths disk root) := by
      rw [List.filter_filter]
      refine List.filter_congr ?_
      intro x _
      rw [Bool.and_self]
    rw [hdocs, hfilter, List.append_nil]
  exact ⟨hmain, by rw [hmain], fun select rdisk q => by rw [hmain]⟩

def wDiskC8 : Disk :=
  [(["h", "Documents"], FsEntry.dir 0),
   (["h", "Documents", "a.txt"], FsEntry.file 1 (some "a")),
   (["h", "Documents", "sub"], FsEntry.dir 0)]

/-- C8, witness: idempotence on a concrete three-entry tree. -/
theorem rebuild_idempotent_witness :
    index_home_state wDiskC8 ["h", "Documents"]
        (index_home_state wDiskC8 ["h", "Documents"] []) =
      index_home_state wDiskC8 ["h", "Documents"] [] :=
  (rebuild_idempotent wDiskC8 ["h", "Documents"] [] (by decide)).1
/-! ## Claim C1: Home-scope results and the indexed root -/

/-- Every result row of an index search carries the path of one of the
retrieved documents. -/
theorem index_search_path {disk : Disk} {q : String} {hits : List IndexedDoc} :
    ∀ r ∈ index_search disk q hits, ∃ d ∈ hits, r.path = d.path := by
  intro r hr
  rcases List.mem_flatMap.1 hr with ⟨d, hd, hrd⟩
  refine ⟨d, hd, ?_⟩
  unfold hitResults at hrd
  by_cases h1 : d.is_directory = 1
  · rw [if_pos h1] at hrd
    simp only [List.mem_singleton] at hrd
    rw [hrd]
  · rw [if_neg h1] at hrd
    by_cases h2 : (find_all_match_lines disk d.path q).isEmpty
    · rw [if_pos h2] at hrd
      simp only [List.mem_singleton] at hrd
      rw [hrd]
    · rw [if_neg h2] at hrd
      rcases List.mem_map.1 hrd with ⟨m, _, hm⟩
      rw [← hm]

/-- A document added during `index_home` lies under the walked root. -/
theorem add_mem_index_home {disk : Disk} {root : Path} {d : IndexedDoc}
    (h : WriterOp.addDocument d ∈ index_home disk root) :
    underRoot root d.path = true := by
  rw [index_home] at h
  rcases List.mem_append.1 h with h | h
  · rcases List.mem_flatMap.1 h with ⟨e, he, hin⟩
    rw [index_home_entry_eq] at hin
    cases hde : entryDoc disk e with
    | none => rw [hde] at hin; cases hin
    | some d' =>
      rw [hde] at hin
      have : d = d' := by
        rcases List.mem_cons.1 hin with h1 | h1
        · cases h1
        · rcases List.mem_cons.1 h1 with h2 | h2
          · cases h2; rfl
          · cases h2
      subst this
      rw [entryDoc_path hde]
      rw [walkEntries] at he
      exact (List.mem_filter.1 he).2
  · simp at h

/-- A document added during `process_changes` carries a batch path. -/
theorem add_mem_process_changes {disk : Disk} {paths : List Path} {d : IndexedDoc}
    (h : WriterOp.addDocument d ∈ process_changes disk paths) : d.path ∈ paths := by
  rw [process_changes] at h
  rcases List.mem_append.1 h with h | h
  · rcases List.mem_flatMap.1 h with ⟨p, hp, hin⟩
    rw [process_changes_elem_eq] at hin
    by_cases hex : (diskLookup disk p).isSome
    · rw [if_pos hex] at hin
      cases hf : fileDocOf disk p with
      | none => rw [hf] at hin; cases hin
      | some d' =>
        rw [hf] at hin
        have : d = d' := by
          rcases List.mem_cons.1 hin with h1 | h1
          · cases h1
          · rcases List.mem_cons.1 h1 with h2 | h2
            · cases h2; rfl
            · cases h2
        subst this
        rw [fileDocOf_path hf]
        exact hp
    · rw [if_neg hex] at hin
      rcases List.mem_cons.1 hin with h1 | h1
      · cases h1
      · cases h1
  · simp at h

/-- A path under the engine's `content_root` is under its home directory. -/
theorem underRoot_contentRoot {home p : Path}
    (h : underRoot (contentRoot home) p = true) : underRoot home p = true := by
  unfold underRoot at h ⊢
  rw [List.isPrefixOf_iff_prefix] at h ⊢
  exact List.IsPrefix.trans (List.prefix_append home ["Documents"]) h

/-- Every document the running engine ever stores lies under the watched home
directory: rebuilds walk `content_root = home/Documents` and change batches
come from the watcher rooted at `home`. -/
theorem runStore_under_home {home : Path} :
    ∀ (steps : List StoreOp) (idx : List IndexedDoc),
      validEngineSteps home steps →
      (∀ d ∈ idx, underRoot home d.path = true) →
      ∀ d ∈ runStore steps idx, underRoot home d.path = true := by
  intro steps
  induction steps with
  | nil => exact fun idx _ hidx => hidx
  | cons s ss ih =>
    intro idx hval hidx
    refine ih _ (fun o ho => hval o (List.mem_cons_of_mem _ ho)) ?_
    intro d hd
    rcases mem_applyWriterOps hd with hd | hd
    · exact hidx d hd
    · have hs := hval s (List.mem_cons_self ..)
      cases s with
      | rebuild disk root =>
        have hroot : root = contentRoot home := hs
        rw [hroot] at hd
        exact underRoot_contentRoot (add_mem_index_home hd)
      | changes disk paths =>
        exact hs d.path (add_mem_process_changes hd)

/-- C1 as stated: after any engine-reachable sequence of rebuilds and
watcher-driven change batches, a Home-scope search only returns paths inside
the manager's `content_root`. -/
def homeScopeClaim : Prop :=
  ∀ (home : Path) (steps : List StoreOp) (rdisk : Disk) (q : String)
    (hits : List IndexedDoc) (files : List RgFile),
    validEngineSteps home steps →
    (∀ d ∈ hits, d ∈ runStore steps []) →
    ∀ r ∈ engine_search rdisk q hits files SearchScope.Home,
      underRoot (contentRoot home) r.path = true

def cDiskC1 : Disk := [(["home", "u", "a.txt"], FsEntry.file 7 (some "hello a"))]

def cStepsC1 : List StoreOp := [.changes cDiskC1 [["home", "u", "a.txt"]]]

/-- C1, counterexample: the watcher is rooted at the home directory while
`content_root` is `home/Documents`, and `process_changes` upserts any existing
path it is handed; a change batch for `~/a.txt` therefore puts a document
outside `content_root` into the index, and a Home-scope search returns it. -/
theorem homeScopeClaim_cex : ¬ homeScopeClaim := by
  intro hclaim
  have hval : validEngineSteps ["home", "u"] cStepsC1 := by
    intro s hs
    rcases List.mem_cons.1 hs with h | h
    · subst h
      intro p hp
      rcases List.mem_cons.1 hp with h | h
      · subst h; decide
      · cases h
    · cases h
  have hrun : runStore cStepsC1 [] = [fileDoc ["home", "u", "a.txt"] "hello a"] := by decide
  have hres :
      engine_search cDiskC1 "hello" (runStore cStepsC1 []) [] SearchScope.Home =
        [⟨["home", "u", "a.txt"], 1, "hello a"⟩] := by decide
  have := hclaim ["home", "u"] cStepsC1 cDiskC1 "hello" (runStore cStepsC1 []) []
    hval (fun d hd => hd) ⟨["home", "u", "a.txt"], 1, "hello a"⟩ (by rw [hres]; simp)
  rw [show underRoot (contentRoot ["home", "u"]) ["home", "u", "a.txt"] = false from by decide]
    at this
  cases this

/-- C1, amended: after any engine-reachable sequence of rebuilds (rooted at
`content_root`) and watcher-driven change batches (paths under the watched
home directory), every path a Home-scope search returns lies under the home
directory — but not necessarily under `content_root = home/Documents`. -/
theorem home_scope_amended (home : Path) (steps : List StoreOp) (rdisk : Disk)
    (q : String) (hits : List IndexedDoc) (files : List RgFile)
    (hval : validEngineSteps home steps)
    (hhits : ∀ d ∈ hits, d ∈ runStore steps []) :
    ∀ r ∈ engine_search rdisk q hits files SearchScope.Home,
      underRoot home r.path = true := by
  intro r hr
  rcases index_search_path r hr with ⟨d, hd, hrd⟩
  rw [hrd]
  exact runStore_under_home steps [] hval (fun d hd => by cases hd) d (hhits d hd)

/-- C1, witness: the amended bound on the counterexample run. -/
theorem home_scope_amended_witness :
    validEngineSteps ["home", "u"] cStepsC1 ∧
      ∀ r ∈ engine_search cDiskC1 "hello" (runStore cStepsC1 []) []
          SearchScope.Home,
        underRoot ["home", "u"] r.path = true := by
  have hval : validEngineSteps ["home", "u"] cStepsC1 := by
    intro s hs
    rcases List.mem_cons.1 hs with h | h
    · subst h
      intro p hp
      rcases List.mem_cons.1 hp with h | h
      · subst h; decide
      · cases h
    · cases h
  exact ⟨hval,
    home_scope_amended ["home", "u"] cStepsC1 cDiskC1 "hello" (runStore cStepsC1 [])
      [] hval (fun d hd => hd)⟩
/-! ## Claim C5: Root-scope result cap -/

/-- One step of the `RipgrepBackend::search` walk loop. -/
def rgStep (cap : Nat) (acc : List SearchResult) (f : RgFile) : List SearchResult :=
  if cap ≤ acc.length then acc
  else
    acc ++ (f.matchLines.map (fun m => (⟨f.path, m.1, m.2⟩ : SearchResult))).take
      (cap - acc.length)

theorem ripgrep_search_eq_foldl (cap : Nat) (files : List RgFile) :
    ripgrep_search cap files = files.foldl (rgStep cap) [] := rfl

theorem foldl_rgStep_length (cap : Nat) :
    ∀ (files : List RgFile) (acc : List SearchResult), acc.length ≤ cap →
      (files.foldl (rgStep cap) acc).length =
        min cap (acc.length + totalRgMatches files) := by
  intro files
  induction files with
  | nil =>
    intro acc h
    simp only [List.foldl_nil, totalRgMatches, List.map_nil, List.sum_nil, Nat.add_zero]
    omega
  | cons f fs ih =>
    intro acc h
    rw [List.foldl_cons]
    have htot : totalRgMatches (f :: fs) = f.matchLines.length + totalRgMatches fs := by
      simp [totalRgMatches]
    rw [htot]
    by_cases hc : cap ≤ acc.length
    · have hacc : acc.length = cap := Nat.le_antisymm h hc
      rw [show rgStep cap acc f = acc from if_pos hc]
      rw [ih acc h]
      omega
    · have hstep : (rgStep cap acc f).length =
          acc.length + min (cap - acc.length) f.matchLines.length := by
        rw [show rgStep cap acc f =
            acc ++ (f.matchLines.map (fun m => (⟨f.path, m.1, m.2⟩ : SearchResult))).take
              (cap - acc.length) from if_neg hc]
        rw [List.length_append, List.length_take, List.length_map]
      have hle : (rgStep cap acc f).length ≤ cap := by
        rw [hstep]; omega
      rw [ih _ hle, hstep]
      omega

/-- C5: a Root-scope query never yields more than the 100-result cap, and a
query whose regex matches more than the cap of lines across the walked files
yields exactly the cap. -/
theorem ripgrep_cap_enforced (rdisk : Disk) (q : String) (hits : List IndexedDoc)
    (files : List RgFile) (h : maxResults < totalRgMatches files) :
    (engine_search rdisk q hits files SearchScope.Root).length = maxResults ∧
      ∀ files' : List RgFile,
        (engine_search rdisk q hits files' SearchScope.Root).length ≤ maxResults := by
  constructor
  · show (ripgrep_search maxResults files).length = maxResults
    rw [ripgrep_search_eq_foldl, foldl_rgStep_length maxResults files [] (Nat.zero_le _)]
    simp only [List.length_nil, Nat.zero_add]
    omega
  · intro files'
    show (ripgrep_search maxResults files').length ≤ maxResults
    rw [ripgrep_search_eq_foldl, foldl_rgStep_length maxResults files' [] (Nat.zero_le _)]
    simp only [List.length_nil, Nat.zero_add]
    omega

def wFilesC5 : List RgFile :=
  [⟨["f1"], (List.range 60).map (fun i => (i + 1, "m"))⟩,
   ⟨["f2"], (List.range 60).map (fun i => (i + 1, "m"))⟩]

/-- C5, witness: 120 matching lines across two walked files yield exactly 100
results. -/
theorem ripgrep_cap_enforced_witness :
    maxResults < totalRgMatches wFilesC5 ∧
      (engine_search [] "m" [] wFilesC5 SearchScope.Root).length = maxResults :=
  ⟨by decide,
    (ripgrep_cap_enforced [] "m" [] wFilesC5 (by decide)).1⟩
/-! ## Claim C6: the stored content field -/

def cDiskC6 : Disk := [(["a.txt"], FsEntry.file 5 (some "hello"))]

/-- C6, counterexample: for an indexable file the document's `content` field is
not the file's text — `index_single_file` prepends the path string and a
newline (`format!("{}\n{}", path_str, content)`). -/
theorem content_field_cex :
    index_single_file cDiskC6 ["a.txt"] =
        [.deleteTerm ["a.txt"], .addDocument (fileDoc ["a.txt"] "hello")] ∧
      (fileDoc ["a.txt"] "hello").content = "/a.txt\nhello" ∧
      (fileDoc ["a.txt"] "hello").content ≠ "hello" := by
  refine ⟨by decide, by decide, by decide⟩

/-- C6, amended: for every regular file that is indexed (size within the
ceiling, valid text, no NUL byte), the document's `content` field equals the
path string, a newline, then the full text of the file; in the schema the
`content` field is tokenized and indexed but not stored. -/
theorem content_field_amended (disk : Disk) (p : Path) (size : Nat) (t : String)
    (h : diskLookup disk p = some (.file size (some t)))
    (hs : size ≤ sizeCeiling) (hn : nullChar ∉ t.toList) :
    index_single_file disk p = [.deleteTerm p, .addDocument (fileDoc p t)] ∧
      (fileDoc p t).content = pathToString p ++ "\n" ++ t ∧
      create_schema.find? (fun f => f.name == "content") =
        some ⟨"content", true, false, false, true⟩ := by
  refine ⟨?_, rfl, by decide⟩
  rw [index_single_file_eq, fileDocOf_file h hs hn]

/-- C6, witness: the amended statement at a concrete file. -/
theorem content_field_amended_witness :
    index_single_file [(["b.md"], FsEntry.file 2 (some "hi"))] ["b.md"] =
        [.deleteTerm ["b.md"], .addDocument (fileDoc ["b.md"] "hi")] ∧
      (fileDoc ["b.md"] "hi").content = pathToString ["b.md"] ++ "\n" ++ "hi" ∧
      create_schema.find? (fun f => f.name == "content") =
        some ⟨"content", true, false, false, true⟩ :=
  content_field_amended [(["b.md"], FsEntry.file 2 (some "hi"))] ["b.md"] 2 "hi"
    (by decide) (by decide) (by decide)
/-! ## Claim C7: per-hit result shape of the index search -/

/-- Characterization of `find_all_match_lines`: a pair `(n, l)` is produced
exactly when the file re-read succeeds and `l` is its `n`-th line (1-based)
whose lowercased text contains the lowercased query. -/
theorem mem_find_all_match_lines {disk : Disk} {p : Path} {q : String}
    {n : Nat} {l : String} :
    (n, l) ∈ find_all_match_lines disk p q ↔
      ∃ c, readToString disk p = some c ∧
        ∃ i, (rustLines c)[i]? = some l ∧ n = i + 1 ∧ containsCI l q = true := by
  unfold find_all_match_lines
  cases hc : readToString disk p with
  | none => simp
  | some c =>
    simp only [Option.some.injEq]
    constructor
    · intro h
      rcases List.mem_filterMap.1 h with ⟨il, hil, hif⟩
      by_cases hq : containsCI il.2 q
      · rw [if_pos hq] at hif
        have hn : n = il.1 + 1 := by cases hif; rfl
        have hl : l = il.2 := by cases hif; rfl
        refine ⟨c, rfl, il.1, ?_, hn, by rw [hl]; exact hq⟩
        have := List.mk_mem_enum_iff_getElem?.1 (by rw [show (il.1, il.2) = il from rfl]; exact hil)
        rw [hl]
        exact this
      · rw [if_neg hq] at hif
        cases hif
    · rintro ⟨c', hc', i, hget, hn, hq⟩
      obtain rfl : c' = c := hc'.symm
      refine List.mem_filterMap.2 ⟨(i, l), List.mk_mem_enum_iff_getElem?.2 hget, ?_⟩
      rw [if_pos hq, hn]

/-- C7: for every retrieved document, a directory hit yields exactly one
`line_number = 0` result; a file hit yields, for nonzero line numbers, exactly
the 1-based lines of the re-read file whose lowercased text contains the
lowercased query, and a single `line_number = 0` result when no line matches
(including when the re-read fails); the whole search is the concatenation of
these per-hit results. -/
theorem index_search_per_hit (disk : Disk) (q : String) (d : IndexedDoc) :
    (d.is_directory = 1 → hitResults disk q d = [⟨d.path, 0, ""⟩]) ∧
      (d.is_directory ≠ 1 →
        (find_all_match_lines disk d.path q = [] →
          hitResults disk q d = [⟨d.path, 0, ""⟩]) ∧
        (∀ n l, ((⟨d.path, n, l⟩ : SearchResult) ∈ hitResults disk q d ∧ n ≠ 0 ↔
          ∃ c, readToString disk d.path = some c ∧
            ∃ i, (rustLines c)[i]? = some l ∧ n = i + 1 ∧ containsCI l q = true))) ∧
      (∀ hits, index_search disk q hits = hits.flatMap (hitResults disk q)) := by
  refine ⟨?_, ?_, fun hits => rfl⟩
  · intro h1
    unfold hitResults
    rw [if_pos h1]
  · intro h1
    constructor
    · intro hml
      unfold hitResults
      rw [if_neg h1, hml]
      rfl
    · intro n l
      constructor
      · rintro ⟨hmem, hn0⟩
        unfold hitResults at hmem
        rw [if_neg h1] at hmem
        by_cases he : (find_all_match_lines disk d.path q).isEmpty
        · rw [if_pos he] at hmem
          simp only [List.mem_singleton] at hmem
          cases hmem
          exact absurd rfl hn0
        · rw [if_neg he] at hmem
          rcases List.mem_map.1 hmem with ⟨m, hm, hmr⟩
          have hmn : m.1 = n := by cases hmr; rfl
          have hml : m.2 = l := by cases hmr; rfl
          have : (n, l) ∈ find_all_match_lines disk d.path q := by
            rw [← hmn, ← hml]
            exact hm
          exact mem_find_all_match_lines.1 this
      · intro hex
        have hmem : (n, l) ∈ find_all_match_lines disk d.path q :=
          mem_find_all_match_lines.2 hex
        have hne : ¬ (find_all_match_lines disk d.path q).isEmpty := by
          intro hc
          rw [List.isEmpty_iff] at hc
          rw [hc] at hmem
          cases hmem
        have hn0 : n ≠ 0 := by
          rcases hex with ⟨c, _, i, _, hn, _⟩
          omega
        refine ⟨?_, hn0⟩
        unfold hitResults
        rw [if_neg h1, if_neg hne]
        exact List.mem_map.2 ⟨(n, l), hmem, rfl⟩

def wDiskC7 : Disk := [(["h", "n.txt"], FsEntry.file 10 (some "Alpha\nbeta ALpha\ngamma"))]

/-- C7, witness: the per-hit theorem applied to a concrete directory document
and to a concrete file document whose second line matches case-insensitively. -/
theorem index_search_per_hit_witness :
    hitResults wDiskC7 "alpha" (dirDoc ["h", "sub"]) = [⟨["h", "sub"], 0, ""⟩] ∧
      ((⟨["h", "n.txt"], 2, "beta ALpha"⟩ : SearchResult) ∈
          hitResults wDiskC7 "alpha" (fileDoc ["h", "n.txt"] "Alpha\nbeta ALpha\ngamma") ∧
        (2 : Nat) ≠ 0) := by
  constructor
  · exact (index_search_per_hit wDiskC7 "alpha" (dirDoc ["h", "sub"])).1 rfl
  · exact ((index_search_per_hit wDiskC7 "alpha"
        (fileDoc ["h", "n.txt"] "Alpha\nbeta ALpha\ngamma")).2.1 (by decide)).2 2 "beta ALpha"
      |>.2 (by refine ⟨"Alpha\nbeta ALpha\ngamma", by decide, 1, by decide, rfl, by decide⟩)
/-! ## Claim C4: progress values -/

def cWalkC4 : List FsEntry := List.replicate 99 (FsEntry.other 0) ++ [FsEntry.file 0 (some "")]

/-- C4, counterexample: the progress numerator counts every walked entry while
the denominator counts only files and directories; a walk of 99 non-file,
non-directory entries (sockets, fifos, dangling symlinks) followed by one file
sends `100 / 1 = 100` at the 100th entry — outside `[0, 1]` — and then the
final `1.0`, a decrease. -/
theorem progress_claim_cex :
    (∃ v ∈ progress_sends cWalkC4, 1 < v) ∧
      ¬ (progress_sends cWalkC4).Pairwise (· ≤ ·) := by
  have h2 : (List.range cWalkC4.length).filter
      (fun i => decide (0 < progress_total cWalkC4) && ((i + 1) % 100 == 0)) = [99] := by
    decide
  have h1 : progress_total cWalkC4 = 1 := by decide
  have hsends : progress_sends cWalkC4 = [0, 100, 1] := by
    rw [progress_sends, h2, h1]
    norm_num
  rw [hsends]
  constructor
  · exact ⟨100, by simp, by norm_num⟩
  · intro hp
    have h100 := (List.pairwise_cons.1 (List.pairwise_cons.1 hp).2).1 1 (by simp)
    norm_num at h100

/-- C4, amended: provided every walked entry is a regular file or a directory
(so numerator and denominator count the same entries), every value sent on the
progress channel lies in `[0, 1]` and the sent sequence is monotonically
non-decreasing; unconditionally, the final value `1.0` is sent on completion
even for an empty walk, and the channel starts pinned at `1.0` when no rebuild
is active. -/
theorem progress_amended (walk : List FsEntry) (h : ∀ e ∈ walk, countedEntry e = true) :
    (∀ v ∈ progress_sends walk, 0 ≤ v ∧ v ≤ 1) ∧
      (progress_sends walk).Pairwise (· ≤ ·) ∧
      (progress_sends walk).getLast? = some 1 ∧
      engineInitialProgress = 1 := by
  have htot : progress_total walk = walk.length := by
    unfold progress_total
    rw [List.filter_eq_self.2 h]
  have hmid : ∀ v ∈ (((List.range walk.length).filter
      (fun i => decide (0 < progress_total walk) && ((i + 1) % 100 == 0))).map
        (fun i => ((i + 1 : Nat) : ℚ) / (progress_total walk : ℚ))), 0 ≤ v ∧ v ≤ 1 := by
    intro v hv
    rcases List.mem_map.1 hv with ⟨i, hi, hiv⟩
    have hrange : i < walk.length := List.mem_range.1 (List.mem_of_mem_filter hi)
    have hcond := List.of_mem_filter hi
    have hpos : 0 < progress_total walk := by
      rw [Bool.and_eq_true] at hcond
      exact of_decide_eq_true hcond.1
    have hposQ : (0 : ℚ) < (progress_total walk : ℚ) := by exact_mod_cast hpos
    constructor
    · rw [← hiv]
      positivity
    · rw [← hiv, div_le_one hposQ]
      have hle : i + 1 ≤ progress_total walk := by omega
      exact_mod_cast hle
  have hbounds : ∀ v ∈ progress_sends walk, 0 ≤ v ∧ v ≤ 1 := by
    intro v hv
    unfold progress_sends at hv
    rcases List.mem_append.1 hv with hv | hv
    · rcases List.mem_append.1 hv with hv | hv
      · simp only [List.mem_singleton] at hv
        subst hv
        norm_num
      · exact hmid v hv
    · simp only [List.mem_singleton] at hv
      subst hv
      norm_num
  refine ⟨hbounds, ?_, ?_, rfl⟩
  · have hmono : ∀ i j : Nat, i < j →
        ((i + 1 : Nat) : ℚ) / (progress_total walk : ℚ) ≤
          ((j + 1 : Nat) : ℚ) / (progress_total walk : ℚ) := by
      intro i j hij
      rcases Nat.eq_zero_or_pos (progress_total walk) with h0 | hpos
      · rw [h0]
        norm_num
      · have hposQ : (0 : ℚ) < (progress_total walk : ℚ) := by exact_mod_cast hpos
        rw [div_le_div_iff_of_pos_right hposQ]
        have hle : i + 1 ≤ j + 1 := Nat.succ_le_succ hij.le
        exact_mod_cast hle
    have hmids : (((List.range walk.length).filter
        (fun i => decide (0 < progress_total walk) && ((i + 1) % 100 == 0))).map
          (fun i => ((i + 1 : Nat) : ℚ) / (progress_total walk : ℚ))).Pairwise (· ≤ ·) :=
      ((List.pairwise_lt_range walk.length).filter _).map _
        (fun a b hab => hmono a b hab)
    unfold progress_sends
    rw [List.pairwise_append]
    refine ⟨?_, List.pairwise_singleton _ _, ?_⟩
    · rw [List.pairwise_append]
      refine ⟨List.pairwise_singleton _ _, hmids, ?_⟩
      intro a ha b hb
      simp only [List.mem_singleton] at ha
      subst ha
      exact (hmid b hb).1
    · intro a ha b hb
      simp only [List.mem_singleton] at hb
      subst hb
      rcases List.mem_append.1 ha with ha | ha
      · simp only [List.mem_singleton] at ha
        subst ha
        norm_num
      · exact (hmid a ha).2
  · unfold progress_sends
    rw [List.getLast?_concat]

/-- C4, witness: the amended statement on a one-file walk. -/
theorem progress_amended_witness :
    (∀ e ∈ [FsEntry.file 0 (some "")], countedEntry e = true) ∧
      (∀ v ∈ progress_sends [FsEntry.file 0 (some "")], 0 ≤ v ∧ v ≤ 1) ∧
      (progress_sends [FsEntry.file 0 (some "")]).Pairwise (· ≤ ·) := by
  have h : ∀ e ∈ [FsEntry.file 0 (some "")], countedEntry e = true := by decide
  obtain ⟨h1, h2, _, _⟩ := progress_amended [FsEntry.file 0 (some "")] h
  exact ⟨h, h1, h2⟩

end Nohrs
